import Mathlib

/-!
# Verification of the file-backed logging session manager of
# `react-native-beautiful-logs`

This file gives a shallow embedding, in Lean 4, of the parts of the
repository that the specification's claims are about:

* the UTF-8 / base64 fallback encoding used by `appendToFile` and
  `loggerInterface.readLogFile` (`src/fileManager.ts`);
* the filename policy `getBaseLogDate` / `generateLogFilename`
  (`src/utils.ts`);
* the retention sweep `cleanupOldLogs` (`src/fileManager.ts`);
* the read / delete / session-reset operations of `loggerInterface`
  (`src/fileManager.ts`);
* the filtering logic of the public `log` function (`src/Logger.ts`);
* the concurrency discipline of the append path: the exported
  `writeToFile` of `src/fileManager.ts` and the promise-chained
  `writeQueue` of the `Logger` class shipped in the repository.

Effectful TypeScript code is embedded as pure functions over explicit
state / environment records whose fields are the results the platform
storage layer (`react-native-blob-util`) returns to the code; the
functions reproduce the source's control flow on those results.
-/

namespace RNLogs

/-! ## UTF-8 encoding

`appendToFile` (fileManager.ts, fallback branch) runs
`Buffer.from(content, 'utf8')`: the standard UTF-8 encoding of the
string.  Bytes are modelled as natural numbers `< 256`, code points as
natural numbers. -/

/-- UTF-8 encoding of one unicode code point (`Buffer.from(s,'utf8')`
byte layout: 1–4 bytes depending on the code point's range). -/
def utf8EncodeCp (c : Nat) : List Nat :=
  if c < 0x80 then [c]
  else if c < 0x800 then [0xC0 + c / 64, 0x80 + c % 64]
  else if c < 0x10000 then
    [0xE0 + c / 4096, 0x80 + (c / 64) % 64, 0x80 + c % 64]
  else
    [0xF0 + c / 262144, 0x80 + (c / 4096) % 64, 0x80 + (c / 64) % 64, 0x80 + c % 64]

/-- UTF-8 encoding of a whole string (`Buffer.from(content, 'utf8')`).
Lean strings are sequences of unicode scalar values, which is exactly
the domain on which the Node `Buffer` UTF-8 codec is lossless. -/
def utf8Encode (s : String) : List Nat :=
  s.data.flatMap (fun ch => utf8EncodeCp ch.toNat)

/-- Is `b` a UTF-8 continuation byte (`10xxxxxx`)? -/
def isCont (b : Nat) : Bool := 0x80 ≤ b && b < 0xC0

/-- Decode one UTF-8-encoded code point from the front of a byte
list: the code point and the remaining bytes. -/
def utf8DecodeOne : List Nat → Option (Nat × List Nat)
  | [] => none
  | b :: rest =>
    if b < 0x80 then some (b, rest)
    else if b < 0xC0 then none
    else if b < 0xE0 then
      match rest with
      | b1 :: rest1 =>
        if isCont b1 then some ((b - 0xC0) * 64 + (b1 - 0x80), rest1) else none
      | [] => none
    else if b < 0xF0 then
      match rest with
      | b1 :: b2 :: rest2 =>
        if isCont b1 && isCont b2 then
          some ((b - 0xE0) * 4096 + (b1 - 0x80) * 64 + (b2 - 0x80), rest2)
        else none
      | _ => none
    else if b < 0x100 then
      match rest with
      | b1 :: b2 :: b3 :: rest3 =>
        if isCont b1 && isCont b2 && isCont b3 then
          some ((b - 0xF0) * 262144 + (b1 - 0x80) * 4096 + (b2 - 0x80) * 64 + (b3 - 0x80),
                rest3)
        else none
      | _ => none
    else none

/-- UTF-8 decoding of a byte list into code points, as performed by
`Buffer.prototype.toString('utf8')` on well-formed input (the `Buffer`
decoder substitutes U+FFFD on ill-formed input; this model returns
`none` there instead, which agrees with it on every well-formed byte
sequence — in particular on everything `utf8Encode` produces). -/
def utf8DecodeCps (bs : List Nat) : Option (List Nat) :=
  match bs with
  | [] => some []
  | b :: rest =>
    match h : utf8DecodeOne (b :: rest) with
    | some p => (utf8DecodeCps p.2).map (fun l => p.1 :: l)
    | none => none
termination_by bs.length
decreasing_by
  simp only [utf8DecodeOne] at h
  split at h
  · simp only [Option.some.injEq] at h
    subst h
    simp
  · split at h
    · exact absurd h (by simp)
    · split at h
      · split at h
        · split at h
          · simp only [Option.some.injEq] at h
            subst h
            simp
            omega
          · exact absurd h (by simp)
        · exact absurd h (by simp)
      · split at h
        · split at h
          · split at h
            · simp only [Option.some.injEq] at h
              subst h
              simp
              omega
            · exact absurd h (by simp)
          · exact absurd h (by simp)
        · split at h
          · split at h
            · split at h
              · simp only [Option.some.injEq] at h
                subst h
                simp
                omega
              · exact absurd h (by simp)
            · exact absurd h (by simp)
          · exact absurd h (by simp)

/-- Reassemble decoded code points into a string (`none` when a code
point is not a unicode scalar value). -/
def cpsToString (l : List Nat) : Option String :=
  (l.mapM (fun (c : Nat) => if h : c.isValidChar then some (Char.ofNatAux c h) else none)).map
    String.mk

/-- Full UTF-8 decode: bytes to string. -/
def utf8Decode (bs : List Nat) : Option String :=
  (utf8DecodeCps bs).bind cpsToString

/-! ## Base64

`appendToFile` renders the UTF-8 bytes in the base64 alphabet with
`.toString('base64')`; `readLogFile` decodes a base64 payload back to
bytes with `Buffer.from(base64Content, 'base64')` before interpreting
the bytes as UTF-8 text. -/

/-- The base64 alphabet used by Node's `Buffer`. -/
def b64Alphabet : List Char :=
  "ABCDEFGHIJKLMNOPQRSTUVWXYZabcdefghijklmnopqrstuvwxyz0123456789+/".data

/-- Character of a sextet value. -/
def b64EncChar (n : Nat) : Char := b64Alphabet.getD n '='

/-- Sextet value of an alphabet character (`none` off-alphabet). -/
def b64DecChar (c : Char) : Option Nat := b64Alphabet.findIdx? (fun d => d = c)

/-- Base64 rendering of a byte list, three bytes to four characters,
`'='`-padded, as produced by `Buffer.prototype.toString('base64')`. -/
def b64Encode : List Nat → List Char
  | [] => []
  | [a] => [b64EncChar (a / 4), b64EncChar (a % 4 * 16), '=', '=']
  | [a, b] => [b64EncChar (a / 4), b64EncChar (a % 4 * 16 + b / 16),
               b64EncChar (b % 16 * 4), '=']
  | a :: b :: c :: rest =>
    b64EncChar (a / 4) :: b64EncChar (a % 4 * 16 + b / 16) ::
      b64EncChar (b % 16 * 4 + c / 64) :: b64EncChar (c % 64) :: b64Encode rest

/-- Base64 decoding back to bytes, as performed by
`Buffer.from(s, 'base64')` on well-formed input (that decoder silently
skips ill-formed input; this model returns `none` there instead, which
agrees with it on everything `b64Encode` produces). -/
def b64Decode : List Char → Option (List Nat)
  | [] => some []
  | [c1, c2, c3, c4] =>
    match b64DecChar c1, b64DecChar c2 with
    | some s1, some s2 =>
      if c3 = '=' && c4 = '=' then some [s1 * 4 + s2 / 16]
      else if c4 = '=' then
        match b64DecChar c3 with
        | some s3 => some [s1 * 4 + s2 / 16, s2 % 16 * 16 + s3 / 4]
        | none => none
      else
        match b64DecChar c3, b64DecChar c4 with
        | some s3, some s4 =>
          some [s1 * 4 + s2 / 16, s2 % 16 * 16 + s3 / 4, s3 % 4 * 64 + s4]
        | _, _ => none
    | _, _ => none
  | c1 :: c2 :: c3 :: c4 :: rest =>
    match b64DecChar c1, b64DecChar c2, b64DecChar c3, b64DecChar c4 with
    | some s1, some s2, some s3, some s4 =>
      (b64Decode rest).map
        (fun l => (s1 * 4 + s2 / 16) :: (s2 % 16 * 16 + s3 / 4) :: (s3 % 4 * 64 + s4) :: l)
    | _, _, _, _ => none
  | _ => none

/-- Write-side fallback transformation of `appendToFile`
(fileManager.ts line 324):
`Buffer.from(content, 'utf8').toString('base64')`. -/
def writeFallbackEncode (s : String) : String :=
  String.mk (b64Encode (utf8Encode s))

/-- Read-side fallback transformation of `readLogFile`
(fileManager.ts lines 836–838):
`Buffer.from(base64Content, 'base64').toString('utf8')`. -/
def readFallbackDecode (t : String) : Option String :=
  (b64Decode t.data).bind utf8Decode



/-! ## Filenames and constants

From `constants.ts`: `LOG_FILE_PREFIX = 'session_'`,
`LOG_FILE_SUFFIX = '.txt'`, `MAX_LOG_FILES = 50`, `MAX_LOG_SIZE_MB = 10`,
`MAX_LOG_AGE_DAYS = 30`. -/

/-- Constant `LOG_FILE_PREFIX` of constants.ts. -/
def logFilePre : String := "session_"

/-- Constant `LOG_FILE_SUFFIX` of constants.ts. -/
def logFileSuf : String := ".txt"

/-- Constant `MAX_LOG_FILES` of constants.ts. -/
def MAX_LOG_FILES : Int := 50

/-- Constant `MAX_LOG_SIZE_MB` of constants.ts. -/
def MAX_LOG_SIZE_MB : ℚ := 10

/-- Constant `MAX_LOG_AGE_DAYS` of constants.ts. -/
def MAX_LOG_AGE_DAYS : Int := 30

/-- JavaScript `s.startsWith(pre)`, expressed on character lists so
that concrete instances compute by kernel reduction. -/
def strStartsWith (s pre : String) : Bool := pre.data.isPrefixOf s.data

/-- JavaScript `s.endsWith(suf)`, on character lists. -/
def strEndsWith (s suf : String) : Bool := suf.data.isSuffixOf s.data

/-- JavaScript `s.toLowerCase()` (ASCII case folding), on character
lists. -/
def strToLower (s : String) : String := String.mk (s.data.map Char.toLower)

/-- JavaScript `s.trim()`: strip leading and trailing whitespace, on
character lists. -/
def strTrim (s : String) : String :=
  String.mk (((s.data.dropWhile Char.isWhitespace).reverse.dropWhile
    Char.isWhitespace).reverse)

/-- The filename validation both `readLogFile` and `deleteLogFileInternal`
perform (fileManager.ts lines 524, 791):
`!filename || !filename.startsWith(LOG_FILE_PREFIX) || !filename.endsWith(LOG_FILE_SUFFIX)`
rejects the name. -/
def validLogFilename (name : String) : Bool :=
  !(name = "") && strStartsWith name logFilePre && strEndsWith name logFileSuf

/-! ## Calendar dates (the `moment` values the source manipulates)

`moment` dates truncated to day granularity (`startOf('day')`) are
modelled as year/month/day triples; the model assumes the UTC timezone,
in which `valueOf()` of a day-aligned moment is `86400000 ·` the civil
day number, so ordering and day differences are as computed below. -/

/-- A calendar date. -/
structure Ymd where
  y : Nat
  m : Nat
  d : Nat
deriving DecidableEq, Repr

/-- Gregorian leap year (as used by `moment`). -/
def isLeapYear (y : Nat) : Bool :=
  (y % 4 = 0 && !(y % 100 = 0)) || y % 400 = 0

/-- Number of days of month `m` (1–12) in year `y`. -/
def daysInMonth (y m : Nat) : Nat :=
  if m = 2 then (if isLeapYear y then 29 else 28)
  else if m = 4 ∨ m = 6 ∨ m = 9 ∨ m = 11 then 30
  else 31

/-- Is `dt` a real calendar date (what non-strict
`moment(s, 'YYYY-MM-DD')` accepts as valid)? -/
def validYmd (dt : Ymd) : Prop :=
  1 ≤ dt.m ∧ dt.m ≤ 12 ∧ 1 ≤ dt.d ∧ dt.d ≤ daysInMonth dt.y dt.m

instance (dt : Ymd) : Decidable (validYmd dt) :=
  inferInstanceAs (Decidable (1 ≤ dt.m ∧ dt.m ≤ 12 ∧ 1 ≤ dt.d ∧ dt.d ≤ daysInMonth dt.y dt.m))

/-- Model of `moment().subtract(1, 'day')`: the previous calendar day, with
month and year borrow. -/
def subtractOneDay (dt : Ymd) : Ymd :=
  if 2 ≤ dt.d then ⟨dt.y, dt.m, dt.d - 1⟩
  else if 2 ≤ dt.m then ⟨dt.y, dt.m - 1, daysInMonth dt.y (dt.m - 1)⟩
  else ⟨dt.y - 1, 12, 31⟩

/-- Civil day number of a date, with day 0 at 1970-01-01 (the number
`moment.valueOf() / 86400000` of the day-aligned moment, in UTC).
Standard days-from-civil computation. -/
def epochDay (dt : Ymd) : Int :=
  let y : Int := if dt.m ≤ 2 then (dt.y : Int) - 1 else (dt.y : Int)
  let era : Int := (if 0 ≤ y then y else y - 399) / 400
  let yoe : Int := y - era * 400
  let mp : Int := ((dt.m : Int) + 9) % 12
  let doy : Int := (153 * mp + 2) / 5 + (dt.d : Int) - 1
  let doe : Int := yoe * 365 + yoe / 4 - yoe / 100 + doy
  era * 146097 + doe - 719468

/-- Two-digit zero padding, as in `moment`'s `MM` / `DD` format tokens. -/
def pad2 (n : Nat) : String := if n < 10 then "0" ++ toString n else toString n

/-- Four-digit zero padding, as in `moment`'s `YYYY` format token. -/
def pad4 (n : Nat) : String :=
  if n < 10 then "000" ++ toString n
  else if n < 100 then "00" ++ toString n
  else if n < 1000 then "0" ++ toString n
  else toString n

/-- Model of `moment.format('YYYY-MM-DD')`. -/
def formatYMD (dt : Ymd) : String := pad4 dt.y ++ "-" ++ pad2 dt.m ++ "-" ++ pad2 dt.d

/-- Model of `getBaseLogDate` (utils.ts lines 29–36): base date of the 2-day log
window — today when the day of month is odd, yesterday when even
(`dayOfMonth % 2 !== 0 ? today : today.clone().subtract(1, 'day')`). -/
def getBaseLogDate (today : Ymd) : Ymd :=
  if today.d % 2 ≠ 0 then today else subtractOneDay today

/-- Model of `generateLogFilename` (utils.ts lines 51–56):
`LOG_FILE_PREFIX + baseDate.format('YYYY-MM-DD') + LOG_FILE_SUFFIX`. -/
def generateLogFilename (today : Ymd) : String :=
  logFilePre ++ formatYMD (getBaseLogDate today) ++ logFileSuf

/-! ## Retention sweep (`cleanupOldLogs`, fileManager.ts lines 373–508)

The sweep lists the log directory, keeps the names matching the log
pattern, stats each one (entries whose stat fails are skipped), parses
a date from each name with the regex `/(\d{4}-\d{2}-\d{2})/` (falling
back to `moment(0)`, the epoch, when the regex does not match), sorts
by that date descending, and then applies the count rule followed by
the age/size rules.  Paths of log files are `logDirectoryPath + '/' +
name` for one fixed directory, so comparing a file's path with
`currentSessionLogPath` is comparing its name with the active file's
name; the active file is modelled by its name (`none` = no active
session file). -/

/-- First leftmost substring of shape `dddd-dd-dd` (digits and
hyphens), as found by the regex `/(\d{4}-\d{2}-\d{2})/`;
`none` when the pattern occurs nowhere. -/
def findDateSub : List Char → Option (List Char)
  | [] => none
  | c :: rest =>
    let l := c :: rest
    let cand := l.take 10
    if cand.length = 10 ∧
        ((cand.take 4).all Char.isDigit) ∧
        cand.getD 4 ' ' = '-' ∧
        (((cand.drop 5).take 2).all Char.isDigit) ∧
        cand.getD 7 ' ' = '-' ∧
        (((cand.drop 8).take 2).all Char.isDigit) then
      some cand
    else findDateSub rest

/-- Numeric value of a digit string. -/
def digitsToNat (l : List Char) : Nat :=
  l.foldl (fun acc c => acc * 10 + (c.toNat - 48)) 0

/-- Split a matched `YYYY-MM-DD` substring into a date triple. -/
def parseDateStr (s : List Char) : Ymd :=
  ⟨digitsToNat (s.take 4), digitsToNat ((s.drop 5).take 2), digitsToNat ((s.drop 8).take 2)⟩

/-- The sort key `cleanupOldLogs` attaches to a file name
(fileManager.ts lines 400–402): the day number of
`moment(dateMatch[1], 'YYYY-MM-DD').startOf('day')` when the regex
matches, the epoch (`moment(0)`, day 0) when it does not.  A regex
match that is not a real calendar date makes the `moment` invalid
(`valueOf()` is `NaN`) and the subsequent sort unspecified; the model
returns `none` there and is only used on inputs where every key is
defined. -/
def dateKey (name : String) : Option Int :=
  match findDateSub name.data with
  | none => some 0
  | some s =>
    let dt := parseDateStr s
    if validYmd dt then some (epochDay dt) else none

/-- A directory entry that survived pattern filter and stat:
name, parsed date key, and size in bytes. -/
structure LogFileInfo where
  name : String
  key : Int
  size : Nat
deriving DecidableEq, Repr

/-- Condition `stats.size / (1024 * 1024) > MAX_LOG_SIZE_MB` (lines 480–481),
with the exact rational value of the division. -/
def sizeExceeds (size : Nat) (maxMB : ℚ) : Prop :=
  maxMB < (size : ℚ) / (1024 * 1024)

/-- Decide `sizeExceeds` by the equivalent integer comparison, so that
concrete instances compute (the JavaScript double division of a size
below 2^53 by 2^20 is exact, so the rational reading is faithful). -/
instance (size : Nat) (maxMB : ℚ) : Decidable (sizeExceeds size maxMB) :=
  decidable_of_iff (maxMB.num * 1048576 < (size : Int) * (maxMB.den : Int)) (by
    unfold sizeExceeds
    rw [show ((1024:ℚ) * 1024) = (1048576:ℚ) by norm_num]
    rw [lt_div_iff (by norm_num : (0:ℚ) < 1048576)]
    conv_rhs => rw [← Rat.num_div_den maxMB]
    rw [div_mul_eq_mul_div, div_lt_iff (by exact_mod_cast maxMB.den_pos)]
    push_cast
    constructor <;> intro h <;> exact_mod_cast h)

/-- Decide positivity of a rational limit by its numerator, so that
concrete instances compute. -/
instance (priority := 2000) (q : ℚ) : Decidable (0 < q) :=
  decidable_of_iff (0 < q.num) Rat.num_pos

/-- Descending-by-key comparison used for
`detailedFiles.sort((a, b) => b.date.valueOf() - a.date.valueOf())`;
`List.insertionSort` with this relation is a stable descending sort,
matching the (stable) JavaScript `Array.prototype.sort`. -/
def keyDescRel (a b : LogFileInfo) : Prop := b.key ≤ a.key

instance : DecidableRel keyDescRel := fun a b =>
  inferInstanceAs (Decidable (b.key ≤ a.key))

instance : IsTotal LogFileInfo keyDescRel :=
  ⟨fun a b => Int.le_total b.key a.key⟩

instance : IsTrans LogFileInfo keyDescRel :=
  ⟨fun _ _ _ hab hbc => Int.le_trans hbc hab⟩

/-- Model of `detailedFiles.sort(...)` (line 426): sort by key, newest first. -/
def sortFilesDesc (files : List LogFileInfo) : List LogFileInfo :=
  files.insertionSort keyDescRel

/-- Is the count rule live (line 434):
`MAX_LOG_FILES > 0 && filesToKeep.length > MAX_LOG_FILES`? -/
def countRuleLive (maxFiles : Int) (files : List LogFileInfo) : Prop :=
  0 < maxFiles ∧ maxFiles < ((sortFilesDesc files).length : Int)

instance (maxFiles : Int) (files : List LogFileInfo) :
    Decidable (countRuleLive maxFiles files) :=
  inferInstanceAs (Decidable (0 < maxFiles ∧ maxFiles < ((sortFilesDesc files).length : Int)))

/-- Names the count rule marks for deletion (lines 434–447): the files
beyond the `maxFiles` newest of the sorted list, except the active
file. -/
def countRuleMarks (maxFiles : Int) (active : Option String)
    (files : List LogFileInfo) : List String :=
  if countRuleLive maxFiles files then
    (((sortFilesDesc files).drop maxFiles.toNat).filter
        (fun f => decide (active ≠ some f.name))).map (fun f => f.name)
  else []

/-- The survivor set the age/size rules then run on (line 449):
`filesToKeep = filesToKeep.slice(0, MAX_LOG_FILES)` when the count
rule fired. -/
def countRuleSurvivors (maxFiles : Int) (files : List LogFileInfo) : List LogFileInfo :=
  if countRuleLive maxFiles files then (sortFilesDesc files).take maxFiles.toNat
  else sortFilesDesc files

/-- Names the age/size pass marks (lines 452–488): on each survivor
that is neither the active file nor already marked, mark when the age
rule is enabled and `daysOld > maxAgeDays`, otherwise when the size
rule is enabled and the size exceeds `maxSizeMB` (the source `return`s
after an age mark, which the disjunction reproduces). -/
def ageSizeRuleMarks (maxAgeDays : Int) (maxSizeMB : ℚ) (today : Int)
    (active : Option String) (alreadyMarked : List String)
    (survivors : List LogFileInfo) : List String :=
  (survivors.filter (fun f => decide (active ≠ some f.name ∧ ¬ f.name ∈ alreadyMarked ∧
      ((0 < maxAgeDays ∧ maxAgeDays < today - f.key) ∨
       (0 < maxSizeMB ∧ sizeExceeds f.size maxSizeMB))))).map (fun f => f.name)

/-- The set of names `cleanupOldLogs` marks for deletion
(fileManager.ts lines 426–488), given the retention limits, today's
day number, the active file name, and the stat-surviving files:

1. sort descending by key;
2. count rule: when enabled (`maxFiles > 0`) and the file count
   exceeds `maxFiles`, mark everything beyond the `maxFiles` newest,
   except the active file, and drop it from the survivor set;
3. age/size rules on the survivors: skip the active file and files
   already marked; mark when enabled-and-too-old, otherwise when
   enabled-and-too-big.

The result is returned as the list of marked names (the source
accumulates them in a `Set`; names are unique in a directory listing). -/
def cleanupSelect (maxFiles maxAgeDays : Int) (maxSizeMB : ℚ) (today : Int)
    (active : Option String) (files : List LogFileInfo) : List String :=
  let countMarked := countRuleMarks maxFiles active files
  countMarked ++
    ageSizeRuleMarks maxAgeDays maxSizeMB today active countMarked
      (countRuleSurvivors maxFiles files)

/-- The whole sweep from a directory listing (name, stat result;
`none` = the stat call failed and the file is skipped, lines 403–423):
pattern filter, stat filter, key assignment, then `cleanupSelect`.
Returns `none` when some name's key is undefined (see `dateKey`). -/
def cleanupOldLogsModel (maxFiles maxAgeDays : Int) (maxSizeMB : ℚ) (today : Int)
    (active : Option String) (listing : List (String × Option Nat)) :
    Option (List String) :=
  let logFileNames := listing.filter
    (fun e => strStartsWith e.1 logFilePre && strEndsWith e.1 logFileSuf)
  let statted := logFileNames.filterMap (fun e => e.2.map (fun sz => (e.1, sz)))
  (statted.mapM (fun e => (dateKey e.1).map (fun k => LogFileInfo.mk e.1 k e.2))).map
    (cleanupSelect maxFiles maxAgeDays maxSizeMB today active)

/-! ## `loggerInterface.readLogFile` (fileManager.ts lines 778–864)

The function runs, in an initialized session (`logDirectoryPath` set):
name validation, `exists`, `stat`, then the platform read(s).  The
storage layer's responses are an explicit environment; the model
returns the result together with the trace of storage calls made. -/

/-- One storage call of the read path. -/
inductive FsOp where
  | checkExists
  | statFile
  | readUtf8
  | readBase64
deriving DecidableEq, Repr

/-- Storage responses for a read of one file.  `statSize = none`
models a stat that throws (or yields no stat object).  `utf8Read =
none` models `readFile(path, 'utf8')` throwing.  `fallbackContent` is
the text produced by the Android fallback branch — reading the raw
bytes in base64 and decoding them with
`Buffer.from(·, 'base64').toString('utf8')` (the pure decode itself is
`readFallbackDecode`); `none` models the base64 read throwing. -/
structure ReadEnv where
  fileExists : Bool
  statSize : Option Nat
  utf8Read : Option String
  fallbackContent : Option String
deriving DecidableEq, Repr

/-- Final content step (lines 853–859): a successfully read content
that is `null` or trims to the empty string is reported as `null`. -/
def readContentResult (c : String) : Option String :=
  if strTrim c = "" then none else some c

/-- The content `readLogFile` ends up with after its read attempts
(`none` = every attempted read threw): on Android the UTF-8 read
(lines 820–823), falling back to the base64 read (lines 824–847);
elsewhere the UTF-8 read only (lines 848–851). -/
def readRawContent (android : Bool) (env : ReadEnv) : Option String :=
  if android then
    match env.utf8Read with
    | some c => some c
    | none => env.fallbackContent
  else env.utf8Read

/-- Model of `loggerInterface.readLogFile` in an initialized session, on
platform `android` or not, with the storage behaviour `env`.  Returns
the result and the storage calls performed, in order (the base64 read
happens exactly when the platform is Android and the UTF-8 read
threw). -/
def readLogFileModel (android : Bool) (env : ReadEnv) (filename : String) :
    Option String × List FsOp :=
  if ¬ validLogFilename filename then (none, [])
  else if ¬ env.fileExists then (none, [FsOp.checkExists])
  else
    match env.statSize with
    | none => (none, [FsOp.checkExists, FsOp.statFile])
    | some sz =>
      if sz = 0 then (none, [FsOp.checkExists, FsOp.statFile])
      else
        let ops := [FsOp.checkExists, FsOp.statFile, FsOp.readUtf8] ++
          (if android ∧ env.utf8Read = none then [FsOp.readBase64] else [])
        match readRawContent android env with
        | some c => (readContentResult c, ops)
        | none => (none, ops)

/-! ## `loggerInterface.deleteLogFile` / `deleteLogFileInternal`
(fileManager.ts lines 519–563, 867–884)

In an initialized session the public method delegates to
`deleteLogFileInternal`: reject invalid names; refuse to delete the
active file; otherwise `unlink` and treat a file-not-found error as
success.  `unlink` on a missing file throws a not-found error; on an
existing file it removes it, or fails (`unlinkFails`). -/

/-- Outcome record of `deleteLogFile`: returned boolean, whether an
`unlink` call was issued, and whether the file was actually removed. -/
structure DeleteOutcome where
  result : Bool
  unlinkCalled : Bool
  fileRemoved : Bool
deriving DecidableEq, Repr

/-- Model of `deleteLogFile filename` in an initialized session with active
file name `active` (`none` = no active path), against a file that
exists iff `fileExists`, with `unlinkFails` telling whether the unlink
of an existing file errors. -/
def deleteLogFileModel (active : Option String) (fileExists unlinkFails : Bool)
    (filename : String) : DeleteOutcome :=
  if ¬ validLogFilename filename then ⟨false, false, false⟩
  else if active = some filename then ⟨false, false, false⟩
  else if ¬ fileExists then ⟨true, true, false⟩
  else if unlinkFails then ⟨false, true, false⟩
  else ⟨true, true, true⟩

/-! ## `loggerInterface.cleanupCurrentSession` (fileManager.ts
lines 944–987)

Stat the active file; when the stat yields size 0, temporarily clear
`currentSessionLogPath` and delete the file through
`deleteLogFileInternal`; when the stat throws (file missing), do
nothing; in every case clear `currentSessionLogPath` and
`isSessionInitialized`, and keep `logDirectoryPath`.  The active path
is modelled by the active file's name (its last path component); the
stat of a present file returns its size (the `!stats` guard of
line 952 is unreachable under the storage API's type, which always
yields a stat object on success).  The unlink of an existing zero-byte
file succeeds in this model. -/

/-- The module state of fileManager.ts that the operation touches. -/
structure SessionState where
  currentSessionLogPath : Option String
  isSessionInitialized : Bool
  logDirectoryPath : Option String
deriving DecidableEq, Repr

/-- Model of `cleanupCurrentSession` on state `st`, where `activeSize` is the
size of the active file on disk (`none` = the file is missing, so the
stat throws).  Returns the new state and whether the file was
deleted. -/
def cleanupCurrentSessionModel (st : SessionState) (activeSize : Option Nat) :
    SessionState × Bool :=
  let cleared : SessionState :=
    ⟨none, false, st.logDirectoryPath⟩
  match st.currentSessionLogPath, st.logDirectoryPath with
  | some name, some _ =>
    let deleted :=
      match activeSize with
      | none => false
      | some sz => if sz = 0 then validLogFilename name else false
    (cleared, deleted)
  | _, _ => (cleared, false)

/-! ## The `log` function (Logger.ts, second part of the repository's
`src`, lines 490–582)

Arguments are strings or non-strings (only their string-ness matters
to level extraction and filtering).  The model returns the entry's
observable effects: its console output and its `writeToFile` call. -/

/-- A `log(...)` argument. -/
inductive LogArg where
  | str (s : String)
  | other
deriving DecidableEq, Repr

/-- The four valid levels. -/
def validLevels : List String := ["debug", "info", "warn", "error"]

/-- JavaScript `hay.includes(needle)`: `needle` occurs as a contiguous
substring of `hay`. -/
def strContainsSub (hay needle : String) : Bool :=
  (List.range (hay.data.length + 1)).any
    (fun i => needle.data.isPrefixOf (hay.data.drop i))

/-- An observable effect of one `log` call. -/
inductive LogEffect where
  | consoleOut (level : String)
  | fileAppend (level : String)
deriving DecidableEq, Repr

/-- Level extraction (Logger.ts lines 496–504): the first argument is
consumed as the level when it is a valid level string; otherwise the
level defaults to `'info'` and every argument is a message part. -/
def levelAndParts (args : List LogArg) : String × List LogArg :=
  match args with
  | LogArg.str s :: rest => if s ∈ validLevels then (s, rest) else ("info", args)
  | _ => ("info", args)

/-- Placeholder insertion (lines 507–510): an empty message-part list
becomes `['[Empty log call]']`. -/
def withPlaceholder (parts : List LogArg) : List LogArg :=
  if parts.isEmpty then [LogArg.str "[Empty log call]"] else parts

/-- The filter test (lines 512–522): some string message part whose
lower-cased text contains some lower-cased filter.  (Case folding is
modelled by ASCII lowering.) -/
def shouldFilter (filters : List String) (parts : List LogArg) : Bool :=
  let lowerFilters := filters.map strToLower
  parts.any (fun p =>
    match p with
    | LogArg.str s => lowerFilters.any (fun f => strContainsSub (strToLower s) f)
    | LogArg.other => false)

/-- The `log` call's effects (lines 490–571): nothing when filtered,
otherwise exactly one console output and one `writeToFile` call. -/
def logModel (filters : List String) (args : List LogArg) : List LogEffect :=
  let lp := levelAndParts args
  let parts := withPlaceholder lp.2
  if shouldFilter filters parts then []
  else [LogEffect.consoleOut lp.1, LogEffect.fileAppend lp.1]

/-! ## Concurrency of the append path

A call of the exported `writeToFile` (fileManager.ts lines 577–664),
in an initialized session on the happy path, performs in order: the
`exists` check (line 605), the `appendFile` system call (line 316/341,
split into its issuing and its completion — the line lands in the file
at completion), and the post-write `stat` (line 634).  Each `await` is
a suspension point: in the event-loop execution model, the steps of
concurrently issued calls interleave arbitrarily, subject only to each
call's own program order, because completion order of distinct native
I/O operations is not guaranteed.

The legacy `Logger` class of the repository instead routes every
append through `this.writeQueue = this.writeQueue.then(...)`
(writeQueue, first part of the repository's `src`, lines 119–177): the
body of the `i`-th append only starts after every earlier body has
settled.  Both disciplines are modelled on the same machine; the queue
is the extra enabledness condition that all earlier threads are
finished. -/

/-- One atomic step of an append call `i`. -/
inductive WStep where
  | checkExists
  | appendStart (i : Nat)
  | appendEnd (i : Nat)
  | statCheck
deriving DecidableEq, Repr

/-- The step sequence of the `i`-th append call. -/
def writeThread (i : Nat) : List WStep :=
  [WStep.checkExists, WStep.appendStart i, WStep.appendEnd i, WStep.statCheck]

/-- Machine state: per-call remaining steps, and the file content as
the sequence of line indices appended so far. -/
structure WState where
  threads : List (List WStep)
  file : List Nat
deriving DecidableEq, Repr

/-- State of `n` append calls issued concurrently, in submission order
`0, …, n-1`, against an empty file. -/
def initWState (n : Nat) : WState :=
  ⟨(List.range n).map writeThread, []⟩

/-- Effect of a step on the file: a line lands at append completion. -/
def applyWStep (file : List Nat) (s : WStep) : List Nat :=
  match s with
  | WStep.appendEnd i => file ++ [i]
  | _ => file

/-- Unserialized scheduler step (the exported `writeToFile`): any call
with steps left may run its next step. -/
def stepFM (st : WState) (t : Nat) : Option WState :=
  match st.threads.get? t with
  | some (s :: rest) => some ⟨st.threads.set t rest, applyWStep st.file s⟩
  | _ => none

/-- Run a schedule of thread choices under the unserialized step. -/
def runFM : WState → List Nat → Option WState
  | st, [] => some st
  | st, t :: sched => (stepFM st t).bind (fun st' => runFM st' sched)

/-- Queue-chained scheduler step (the `writeQueue` of the `Logger`
class): call `t` may run only when every earlier call has finished. -/
def stepQ (st : WState) (t : Nat) : Option WState :=
  match st.threads.get? t with
  | some (s :: rest) =>
    if (st.threads.take t).all (fun th => th.isEmpty) then
      some ⟨st.threads.set t rest, applyWStep st.file s⟩
    else none
  | _ => none

/-- Run a schedule of thread choices under the queue-chained step. -/
def runQ : WState → List Nat → Option WState
  | st, [] => some st
  | st, t :: sched => (stepQ st t).bind (fun st' => runQ st' sched)

/-- Number of appends in flight: calls that have issued their
`appendFile` and not yet seen it complete. -/
def inFlight (st : WState) : Nat :=
  st.threads.countP (fun th =>
    match th with
    | WStep.appendEnd _ :: _ => true
    | _ => false)

/-- All calls finished. -/
def allDone (st : WState) : Prop := ∀ th ∈ st.threads, th = []

instance (st : WState) : Decidable (allDone st) :=
  inferInstanceAs (Decidable (∀ th ∈ st.threads, th = []))

/-- Claim C1 as stated, read against the exported `writeToFile`: for
every `N ≤ 50` and every complete schedule, the file holds the `N`
lines exactly once each in submission order, and no reachable state
has two appends in flight. -/
def fmSerializedClaim : Prop :=
  ∀ n : Nat, n ≤ 50 →
    (∀ sched st', runFM (initWState n) sched = some st' → allDone st' →
        st'.file = List.range n) ∧
    (∀ sched st', runFM (initWState n) sched = some st' → inFlight st' ≤ 1)

/-- Canonical reachable state of the queue-chained discipline: calls
`< k` finished, call `k` at position `p` of its four steps, later
calls untouched. -/
def qState (n k p : Nat) : WState :=
  ⟨(List.range n).map (fun j =>
      if j < k then [] else if j = k then (writeThread j).drop p else writeThread j),
   List.range (if k < n ∧ 3 ≤ p then k + 1 else k)⟩

/-! ### marker: more definitions go here -/

/-- Condition "some filter substring matches, case-insensitively, some
string-typed argument of the call" — the suppression condition of
claim C6 as stated, over the call's arguments. -/
def someArgMatches (filters : List String) (args : List LogArg) : Prop :=
  ∃ a ∈ args, ∃ s, a = LogArg.str s ∧
    ∃ f ∈ filters, strContainsSub (strToLower s) (strToLower f) = true

/-- Claim C6 as stated: for every filter list and call, suppression
happens iff some filter matches some string-typed argument, and
non-matching calls produce exactly one console output and one
file-append attempt. -/
def filterClaimStated : Prop :=
  ∀ (filters : List String) (args : List LogArg),
    (logModel filters args = [] ↔ someArgMatches filters args) ∧
    (¬ someArgMatches filters args →
      logModel filters args =
        [LogEffect.consoleOut (levelAndParts args).1,
         LogEffect.fileAppend (levelAndParts args).1])

/-! ## Proofs -/

theorem b64DecChar_encChar : ∀ s : Nat, s < 64 → b64DecChar (b64EncChar s) = some s := by
  decide

theorem b64EncChar_ne_pad : ∀ s : Nat, s < 64 → ¬ (b64EncChar s = '=') := by
  decide

theorem b64Encode_cons_ne_nil (x : Nat) (xs : List Nat) : b64Encode (x :: xs) ≠ [] := by
  match xs with
  | [] => simp [b64Encode]
  | [a] => simp [b64Encode]
  | a :: b :: t => simp [b64Encode]

/-- Decoding inverts encoding on byte lists (all entries `< 256`). -/
theorem b64_roundtrip : ∀ l : List Nat, (∀ b ∈ l, b < 256) →
    b64Decode (b64Encode l) = some l
  | [], _ => rfl
  | [a], h => by
    have ha : a < 256 := h a (by simp)
    have h1 : a / 4 < 64 := by omega
    have h2 : a % 4 * 16 < 64 := by omega
    simp only [b64Encode, b64Decode, b64DecChar_encChar _ h1, b64DecChar_encChar _ h2]
    simp only [decide_True, Bool.and_self, if_true, Option.some.injEq, List.cons.injEq, and_true]
    omega
  | [a, b], h => by
    have ha : a < 256 := h a (by simp)
    have hb : b < 256 := h b (by simp)
    have h1 : a / 4 < 64 := by omega
    have h2 : a % 4 * 16 + b / 16 < 64 := by omega
    have h3 : b % 16 * 4 < 64 := by omega
    simp only [b64Encode, b64Decode, b64DecChar_encChar _ h1, b64DecChar_encChar _ h2,
      b64DecChar_encChar _ h3]
    rw [if_neg (by simp [b64EncChar_ne_pad _ h3]), if_pos (by simp)]
    simp only [Option.some.injEq, List.cons.injEq, and_true]
    omega
  | [a, b, c], h => by
    have ha : a < 256 := h a (by simp)
    have hb : b < 256 := h b (by simp)
    have hc : c < 256 := h c (by simp)
    have h1 : a / 4 < 64 := by omega
    have h2 : a % 4 * 16 + b / 16 < 64 := by omega
    have h3 : b % 16 * 4 + c / 64 < 64 := by omega
    have h4 : c % 64 < 64 := by omega
    simp only [b64Encode, b64Decode, b64DecChar_encChar _ h1, b64DecChar_encChar _ h2,
      b64DecChar_encChar _ h3, b64DecChar_encChar _ h4]
    rw [if_neg (by simp [b64EncChar_ne_pad _ h3]), if_neg (by simp [b64EncChar_ne_pad _ h4])]
    simp only [b64DecChar_encChar _ h3, b64DecChar_encChar _ h4, Option.some.injEq,
      List.cons.injEq, and_true]
    omega
  | a :: b :: c :: d :: t, h => by
    have ha : a < 256 := h a (by simp)
    have hb : b < 256 := h b (by simp)
    have hc : c < 256 := h c (by simp)
    have h1 : a / 4 < 64 := by omega
    have h2 : a % 4 * 16 + b / 16 < 64 := by omega
    have h3 : b % 16 * 4 + c / 64 < 64 := by omega
    have h4 : c % 64 < 64 := by omega
    have ih := b64_roundtrip (d :: t) (fun x hx => h x (by simp_all))
    rcases hE : b64Encode (d :: t) with _ | ⟨y, ys⟩
    · exact absurd hE (b64Encode_cons_ne_nil d t)
    · rw [hE] at ih
      show b64Decode (b64Encode (a :: b :: c :: d :: t)) = some (a :: b :: c :: d :: t)
      rw [show b64Encode (a :: b :: c :: d :: t) =
            b64EncChar (a / 4) :: b64EncChar (a % 4 * 16 + b / 16) ::
              b64EncChar (b % 16 * 4 + c / 64) :: b64EncChar (c % 64) ::
                b64Encode (d :: t) from rfl, hE]
      simp only [b64Decode, b64DecChar_encChar _ h1, b64DecChar_encChar _ h2,
        b64DecChar_encChar _ h3, b64DecChar_encChar _ h4, ih, Option.map_some]
      simp only [Option.map_some', Option.some.injEq, List.cons.injEq, and_true, true_and]
      omega


theorem char_toNat_lt (c : Char) : c.toNat < 1114112 := by
  have hvalid := c.valid
  simp only [Char.toNat]
  rcases hvalid with h | ⟨h1, h2⟩ <;> omega

theorem charOfNatAux_toNat (c : Char) (h : Nat.isValidChar c.toNat) :
    Char.ofNatAux c.toNat h = c := by
  apply Char.ext
  apply UInt32.ext
  rfl

theorem utf8EncodeCp_lt (c : Nat) (hc : c < 1114112) : ∀ b ∈ utf8EncodeCp c, b < 256 := by
  intro b hb
  unfold utf8EncodeCp at hb
  split at hb
  · simp at hb
    omega
  · split at hb
    · simp at hb
      rcases hb with h | h <;> omega
    · split at hb
      · simp at hb
        rcases hb with h | h | h <;> omega
      · simp at hb
        rcases hb with h | h | h | h <;> omega

theorem utf8DecodeOne_encCp (c : Char) (rest : List Nat) :
    utf8DecodeOne (utf8EncodeCp c.toNat ++ rest) = some (c.toNat, rest) := by
  have hv := char_toNat_lt c
  by_cases h1 : c.toNat < 128
  · simp only [utf8EncodeCp, if_pos h1, List.cons_append, List.nil_append, utf8DecodeOne]
  · by_cases h2 : c.toNat < 2048
    · have hcont : isCont (128 + c.toNat % 64) = true := by
        simp only [isCont, Bool.and_eq_true, decide_eq_true_eq]
        omega
      simp only [utf8EncodeCp, if_neg h1, if_pos h2, List.cons_append, List.nil_append,
        utf8DecodeOne, hcont, if_true]
      rw [if_neg (by omega), if_neg (by omega), if_pos (by omega)]
      simp only [Option.some.injEq, Prod.mk.injEq, and_true]
      omega
    · by_cases h3 : c.toNat < 65536
      · have hcont : (isCont (128 + c.toNat / 64 % 64) && isCont (128 + c.toNat % 64)) = true := by
          simp only [isCont, Bool.and_eq_true, decide_eq_true_eq]
          omega
        simp only [utf8EncodeCp, if_neg h1, if_neg h2, if_pos h3, List.cons_append,
          List.nil_append, utf8DecodeOne, hcont, if_true]
        rw [if_neg (by omega), if_neg (by omega), if_neg (by omega), if_pos (by omega)]
        simp only [Option.some.injEq, Prod.mk.injEq, and_true]
        omega
      · have hcont : (isCont (128 + c.toNat / 4096 % 64) && isCont (128 + c.toNat / 64 % 64) &&
            isCont (128 + c.toNat % 64)) = true := by
          simp only [isCont, Bool.and_eq_true, decide_eq_true_eq]
          omega
        simp only [utf8EncodeCp, if_neg h1, if_neg h2, if_neg h3, List.cons_append,
          List.nil_append, utf8DecodeOne, hcont, if_true]
        rw [if_neg (by omega), if_neg (by omega), if_neg (by omega), if_neg (by omega),
          if_pos (by omega)]
        simp only [Option.some.injEq, Prod.mk.injEq, and_true]
        omega

theorem utf8EncodeCp_ne_nil (c : Nat) : ∃ b t, utf8EncodeCp c = b :: t := by
  unfold utf8EncodeCp
  split
  · exact ⟨_, _, rfl⟩
  · split
    · exact ⟨_, _, rfl⟩
    · split
      · exact ⟨_, _, rfl⟩
      · exact ⟨_, _, rfl⟩

theorem utf8DecodeCps_encCp (c : Char) (rest : List Nat) :
    utf8DecodeCps (utf8EncodeCp c.toNat ++ rest) =
      (utf8DecodeCps rest).map (fun l => c.toNat :: l) := by
  obtain ⟨b, t, hE⟩ := utf8EncodeCp_ne_nil c.toNat
  rw [hE, List.cons_append, utf8DecodeCps]
  split
  · next p hp =>
    rw [← List.cons_append, ← hE, utf8DecodeOne_encCp] at hp
    injection hp with hp
    subst hp
    rfl
  · next hp =>
    rw [← List.cons_append, ← hE, utf8DecodeOne_encCp] at hp
    exact Option.noConfusion hp

theorem utf8DecodeCps_encode (l : List Char) :
    utf8DecodeCps (l.flatMap (fun ch => utf8EncodeCp ch.toNat)) =
      some (l.map Char.toNat) := by
  induction l with
  | nil => simp [utf8DecodeCps]
  | cons c t ih =>
    rw [List.flatMap_cons, utf8DecodeCps_encCp c, ih]
    rfl

theorem mapM_valid_chars (l : List Char) :
    ((l.map Char.toNat).mapM
        (fun (c : Nat) => if h : c.isValidChar then some (Char.ofNatAux c h) else none)) =
      some l := by
  induction l with
  | nil => rfl
  | cons c t ih =>
    have hval : Nat.isValidChar c.toNat := c.valid
    simp only [List.map_cons, List.mapM_cons, dif_pos hval, charOfNatAux_toNat c hval, ih,
      Option.pure_def, Option.bind_some, Option.bind_eq_bind]
    rfl

theorem utf8_roundtrip (s : String) : utf8Decode (utf8Encode s) = some s := by
  unfold utf8Decode utf8Encode
  rw [utf8DecodeCps_encode s.data]
  show cpsToString (s.data.map Char.toNat) = some s
  unfold cpsToString
  rw [mapM_valid_chars s.data]
  rcases s with ⟨l⟩
  rfl

theorem utf8Encode_lt (s : String) : ∀ b ∈ utf8Encode s, b < 256 := by
  intro b hb
  unfold utf8Encode at hb
  rw [List.mem_flatMap] at hb
  obtain ⟨c, _, hmem⟩ := hb
  exact utf8EncodeCp_lt c.toNat (char_toNat_lt c) b hmem

/-- Claim C5 (confirmed).  For every string — multibyte characters
included — encoding it for the fallback write path of `appendToFile`
(UTF-8 bytes rendered in the base64 alphabet,
`Buffer.from(content, 'utf8').toString('base64')`) and decoding it
back with the fallback read path of `readLogFile`
(`Buffer.from(base64Content, 'base64').toString('utf8')`) yields
exactly the original string. -/
theorem claim_C5_fallback_roundtrip (s : String) :
    readFallbackDecode (writeFallbackEncode s) = some s := by
  unfold readFallbackDecode writeFallbackEncode
  rw [show (String.mk (b64Encode (utf8Encode s))).data = b64Encode (utf8Encode s) from rfl]
  rw [b64_roundtrip _ (utf8Encode_lt s)]
  rw [Option.some_bind]
  exact utf8_roundtrip s


/-- Claim C3 (confirmed).  For every valid date, the generated log
filename is `prefix + base-date formatted YYYY-MM-DD + suffix`, where
the base date is the date itself on an odd day of month and the
previous day on an even day (the previous day of an even day is day
`d - 1` of the same month); in particular 2024-03-14 yields
`session_2024-03-13.txt` and 2024-03-15 yields
`session_2024-03-15.txt`. -/
theorem claim_C3_filename_parity (dt : Ymd) (hvalid : validYmd dt) :
    generateLogFilename dt =
      logFilePre ++ formatYMD (if dt.d % 2 = 1 then dt else subtractOneDay dt) ++ logFileSuf ∧
    (dt.d % 2 = 0 → subtractOneDay dt = ⟨dt.y, dt.m, dt.d - 1⟩) ∧
    generateLogFilename ⟨2024, 3, 14⟩ = "session_2024-03-13.txt" ∧
    generateLogFilename ⟨2024, 3, 15⟩ = "session_2024-03-15.txt" := by
  obtain ⟨hm1, hm2, hd1, hd2⟩ := hvalid
  refine ⟨?_, ?_, by rfl, by rfl⟩
  · unfold generateLogFilename getBaseLogDate
    by_cases h : dt.d % 2 = 1
    · rw [if_pos (by omega), if_pos h]
    · rw [if_neg (by omega), if_neg h]
  · intro h
    unfold subtractOneDay
    rw [if_pos (by omega)]

/-- Witness for C3 at 2024-03-14. -/
theorem claim_C3_filename_parity_witness :
    generateLogFilename ⟨2024, 3, 14⟩ =
      logFilePre ++
        formatYMD (if (14 : Nat) % 2 = 1 then (⟨2024, 3, 14⟩ : Ymd)
          else subtractOneDay ⟨2024, 3, 14⟩) ++ logFileSuf :=
  (claim_C3_filename_parity ⟨2024, 3, 14⟩ (by decide)).1

/-- Claim C2 (confirmed).  For every retention configuration and
every file set containing the active file, the names the retention
sweep selects for deletion never include the active file's name — even
when it is the oldest, the largest, or beyond the count cutoff. -/
theorem claim_C2_active_file_immunity (maxFiles maxAgeDays : Int) (maxSizeMB : ℚ)
    (today : Int) (activeName : String) (files : List LogFileInfo)
    (hmem : activeName ∈ files.map LogFileInfo.name) :
    ¬ activeName ∈
      cleanupSelect maxFiles maxAgeDays maxSizeMB today (some activeName) files := by
  clear hmem
  intro hc
  unfold cleanupSelect at hc
  rw [List.mem_append] at hc
  have hcount : ∀ nm ∈ countRuleMarks maxFiles (some activeName) files, nm ≠ activeName := by
    intro nm hnm
    unfold countRuleMarks at hnm
    split at hnm
    · rw [List.mem_map] at hnm
      obtain ⟨f, hf, hfn⟩ := hnm
      rw [List.mem_filter] at hf
      have := of_decide_eq_true hf.2
      intro heq
      exact this (by rw [hfn, heq])
    · simp at hnm
  rcases hc with hc | hc
  · exact hcount _ hc rfl
  · unfold ageSizeRuleMarks at hc
    rw [List.mem_map] at hc
    obtain ⟨f, hf, hfn⟩ := hc
    rw [List.mem_filter] at hf
    have := of_decide_eq_true hf.2
    exact this.1 (by rw [hfn])

/-- Witness for C2: the active file is the oldest, the largest, and
beyond the count cutoff, yet is not selected. -/
theorem claim_C2_active_file_immunity_witness :
    "session_2020-01-01.txt" ∈
      ([⟨"session_2020-01-01.txt", 18262, 99999999⟩,
        ⟨"session_2024-03-14.txt", 19796, 5⟩,
        ⟨"session_2024-03-12.txt", 19794, 5⟩] : List LogFileInfo).map LogFileInfo.name ∧
    ¬ "session_2020-01-01.txt" ∈
      cleanupSelect 1 1 1 19798 (some "session_2020-01-01.txt")
        [⟨"session_2020-01-01.txt", 18262, 99999999⟩,
         ⟨"session_2024-03-14.txt", 19796, 5⟩,
         ⟨"session_2024-03-12.txt", 19794, 5⟩] :=
  ⟨by decide,
   claim_C2_active_file_immunity 1 1 1 19798 "session_2020-01-01.txt" _ (by decide)⟩


theorem sortFilesDesc_perm (files : List LogFileInfo) :
    List.Perm (sortFilesDesc files) files :=
  List.perm_insertionSort keyDescRel files

theorem sortFilesDesc_sorted (files : List LogFileInfo) :
    (sortFilesDesc files).Pairwise keyDescRel :=
  List.sorted_insertionSort keyDescRel files

theorem sortFilesDesc_strict (files : List LogFileInfo)
    (hkeys : (files.map LogFileInfo.key).Pairwise (fun a b => a ≠ b)) :
    (sortFilesDesc files).Pairwise (fun a b => b.key < a.key) := by
  have hne : files.Pairwise (fun a b => a.key ≠ b.key) := by
    rw [List.pairwise_map] at hkeys
    exact hkeys
  have hneS : (sortFilesDesc files).Pairwise (fun a b => a.key ≠ b.key) := by
    refine ((sortFilesDesc_perm files).pairwise_iff ?_).mpr hne
    intro a b h
    exact h.symm
  exact ((sortFilesDesc_sorted files).and hneS).imp
    (fun h => lt_of_le_of_ne h.1 (Ne.symm h.2))

theorem mem_drop_iff_rank :
    ∀ (S : List LogFileInfo), S.Pairwise (fun a b => b.key < a.key) →
      ∀ (k : Nat) (f : LogFileInfo), f ∈ S →
        (f ∈ S.drop k ↔ k ≤ (S.filter (fun g => decide (f.key < g.key))).length) := by
  intro S
  induction S with
  | nil =>
    intro _ k f hf
    exact absurd hf (List.not_mem_nil f)
  | cons x T ih =>
    intro hpair k f hf
    rw [List.pairwise_cons] at hpair
    obtain ⟨hx, hT⟩ := hpair
    match k with
    | 0 =>
      simp only [List.drop_zero, Nat.zero_le, iff_true]
      exact hf
    | k + 1 =>
      rw [List.drop_succ_cons]
      rcases List.mem_cons.mp hf with heq | hfT
      · subst heq
        have hL : ¬ f ∈ T.drop k := by
          intro hmem
          exact absurd (hx f (List.mem_of_mem_drop hmem)) (lt_irrefl f.key)
        have hR : (List.filter (fun g => decide (f.key < g.key)) (f :: T)).length = 0 := by
          rw [List.length_eq_zero]
          rw [List.filter_eq_nil]
          intro g hg
          rcases List.mem_cons.mp hg with rfl | hgT
          · simp
          · simp only [decide_eq_true_eq]
            have := hx g hgT
            omega
        rw [hR]
        simp [hL]
      · have hlt : f.key < x.key := hx f hfT
        rw [List.filter_cons_of_pos (by simp [hlt])]
        rw [List.length_cons]
        rw [ih hT k f hfT]
        omega

/-- Claim C4 (confirmed).  The count rule of the retention sweep
sorts the files by the date key parsed from the name, descending
(unparsable names keyed at the epoch by `dateKey`), and, when it is
live, marks exactly the files beyond the `maxFiles`-th newest: a file
is count-marked iff the count exceeds `maxFiles` and at least
`maxFiles` files are strictly newer.  In particular, with
`maxFileCount = 2` and three non-active files dated
2024-03-10 < 2024-03-12 < 2024-03-14, the whole sweep selects exactly
the file dated 2024-03-10. -/
theorem claim_C4_count_rule :
    (∀ (maxFiles : Int) (active : Option String) (files : List LogFileInfo)
        (f : LogFileInfo),
      0 < maxFiles →
      (files.map LogFileInfo.key).Pairwise (fun a b => a ≠ b) →
      (files.map LogFileInfo.name).Nodup →
      (∀ g ∈ files, active ≠ some g.name) →
      f ∈ files →
      (f.name ∈ countRuleMarks maxFiles active files ↔
        maxFiles < (files.length : Int) ∧
          maxFiles ≤ ((files.filter (fun g => decide (f.key < g.key))).length : Int))) ∧
    cleanupOldLogsModel 2 30 10 (epochDay ⟨2024, 3, 16⟩) (some "session_2024-03-15.txt")
        [("session_2024-03-10.txt", some 5), ("session_2024-03-14.txt", some 5),
         ("session_2024-03-12.txt", some 5)] =
      some ["session_2024-03-10.txt"] := by
  constructor
  · intro maxFiles active files f hpos hkeys hnames hactive hf
    have hperm := sortFilesDesc_perm files
    have hlen : (sortFilesDesc files).length = files.length := hperm.length_eq
    have hstrict := sortFilesDesc_strict files hkeys
    unfold countRuleMarks
    by_cases hlive : countRuleLive maxFiles files
    · rw [if_pos hlive]
      have hfilter :
          ((sortFilesDesc files).drop maxFiles.toNat).filter
              (fun g => decide (active ≠ some g.name)) =
            (sortFilesDesc files).drop maxFiles.toNat := by
        rw [List.filter_eq_self]
        intro g hg
        exact decide_eq_true (hactive g (hperm.mem_iff.mp (List.mem_of_mem_drop hg)))
      rw [hfilter]
      have hfS : f ∈ sortFilesDesc files := hperm.mem_iff.mpr hf
      have hrank := mem_drop_iff_rank (sortFilesDesc files) hstrict maxFiles.toNat f hfS
      have hfiltlen :
          ((sortFilesDesc files).filter (fun g => decide (f.key < g.key))).length =
            (files.filter (fun g => decide (f.key < g.key))).length :=
        (hperm.filter _).length_eq
      constructor
      · intro hmem
        rw [List.mem_map] at hmem
        obtain ⟨g, hg, hgname⟩ := hmem
        have hgS : g ∈ files := hperm.mem_iff.mp (List.mem_of_mem_drop hg)
        have : g = f := List.inj_on_of_nodup_map hnames hgS hf hgname
        subst this
        have := hrank.mp hg
        rw [hfiltlen] at this
        refine ⟨by rw [← hlen]; exact hlive.2, ?_⟩
        omega
      · intro ⟨h1, h2⟩
        have : maxFiles.toNat ≤
            ((sortFilesDesc files).filter (fun g => decide (f.key < g.key))).length := by
          rw [hfiltlen]
          omega
        exact List.mem_map_of_mem LogFileInfo.name (hrank.mpr this)
    · rw [if_neg hlive]
      simp only [List.not_mem_nil, false_iff]
      intro ⟨h1, _⟩
      exact hlive ⟨hpos, by rw [hlen]; exact h1⟩
  · rfl

/-- Witness for C4's count-rule characterization on a concrete
three-file set with `maxFiles = 2`. -/
theorem claim_C4_count_rule_witness :
    ("session_2024-03-10.txt" ∈ countRuleMarks 2 none
        [⟨"session_2024-03-10.txt", 19792, 5⟩, ⟨"session_2024-03-14.txt", 19796, 5⟩,
         ⟨"session_2024-03-12.txt", 19794, 5⟩] ↔
      (2 : Int) < ((([⟨"session_2024-03-10.txt", 19792, 5⟩,
            ⟨"session_2024-03-14.txt", 19796, 5⟩,
            ⟨"session_2024-03-12.txt", 19794, 5⟩] : List LogFileInfo)).length : Int) ∧
        (2 : Int) ≤
          ((([⟨"session_2024-03-10.txt", 19792, 5⟩, ⟨"session_2024-03-14.txt", 19796, 5⟩,
              ⟨"session_2024-03-12.txt", 19794, 5⟩] : List LogFileInfo).filter
              (fun g => decide ((19792 : Int) < g.key))).length : Int)) :=
  claim_C4_count_rule.1 2 none
    [⟨"session_2024-03-10.txt", 19792, 5⟩, ⟨"session_2024-03-14.txt", 19796, 5⟩,
     ⟨"session_2024-03-12.txt", 19794, 5⟩]
    ⟨"session_2024-03-10.txt", 19792, 5⟩
    (by decide) (by decide) (by decide) (by decide) (by decide)


/-- Claim C7 counterexample.  A whitespace-only file of size 1 —
valid name, file present, non-zero size, readable under the primary
encoding — still makes `readLogFile` return `null`, so "returns null
in exactly these cases: invalid name, missing file, zero-size file,
content unreadable under both encodings" is false as stated. -/
theorem claim_C7_counterexample :
    (readLogFileModel true ⟨true, some 1, some " ", none⟩ "session_2024-03-14.txt").1 =
        none ∧
    validLogFilename "session_2024-03-14.txt" = true ∧
    (⟨true, some 1, some " ", none⟩ : ReadEnv).fileExists = true ∧
    (⟨true, some 1, some " ", none⟩ : ReadEnv).statSize = some 1 ∧
    ¬ (⟨true, some 1, some " ", none⟩ : ReadEnv).utf8Read = none := by
  refine ⟨by rfl, by rfl, by rfl, by rfl, by simp⟩

/-- Claim C7 (corrected).  In an initialized session `readLogFile`
validates the name before any storage call — an invalid name produces
the result with an empty storage trace — and returns `null` exactly
when: the name is invalid, the file is missing, the stat fails or
reports size 0, every attempted read throws, or the content finally
read trims to the empty string. -/
theorem claim_C7_read_null_amended (android : Bool) (env : ReadEnv) (filename : String) :
    ((readLogFileModel android env filename).1 = none ↔
      (¬ validLogFilename filename = true ∨ env.fileExists = false ∨
        env.statSize = none ∨ env.statSize = some 0 ∨
        readRawContent android env = none ∨
        (∃ c, readRawContent android env = some c ∧ strTrim c = ""))) ∧
    (¬ validLogFilename filename = true →
      (readLogFileModel android env filename).2 = []) := by
  obtain ⟨ex, st, u8, fb⟩ := env
  unfold readLogFileModel readContentResult
  by_cases hval : validLogFilename filename
  · rw [if_neg (by simpa using hval)]
    refine ⟨?_, fun h => absurd hval h⟩
    cases ex
    · simp
    · rw [if_neg (by simp)]
      cases st
      · simp
      · next sz =>
        dsimp only
        rcases Nat.eq_zero_or_pos sz with rfl | hsz
        · simp
        · rw [if_neg (by omega)]
          rcases hraw : readRawContent android ⟨true, some sz, u8, fb⟩ with _ | c
          · simp
          · dsimp only
            by_cases htrim : strTrim c = ""
            · rw [if_pos htrim]
              simp only [true_iff]
              right
              right
              right
              right
              right
              exact ⟨c, rfl, htrim⟩
            · rw [if_neg htrim]
              simp only [Option.some.injEq, reduceCtorEq, false_iff, not_or, not_exists,
                not_and, false_or]
              refine ⟨fun h => h hval, by omega, ?_⟩
              intro c' hc'
              subst hc'
              exact htrim
  · rw [if_pos (by simpa using hval)]
    exact ⟨by simp [hval], fun _ => rfl⟩

/-- Witness for the amended C7 at a concrete environment: missing
file, valid name. -/
theorem claim_C7_read_null_amended_witness :
    ((readLogFileModel false ⟨false, none, none, none⟩ "session_2024-03-14.txt").1 = none ↔
      (¬ validLogFilename "session_2024-03-14.txt" = true ∨
        (⟨false, none, none, none⟩ : ReadEnv).fileExists = false ∨
        (⟨false, none, none, none⟩ : ReadEnv).statSize = none ∨
        (⟨false, none, none, none⟩ : ReadEnv).statSize = some 0 ∨
        readRawContent false ⟨false, none, none, none⟩ = none ∨
        (∃ c, readRawContent false ⟨false, none, none, none⟩ = some c ∧ strTrim c = ""))) :=
  (claim_C7_read_null_amended false ⟨false, none, none, none⟩ "session_2024-03-14.txt").1

/-- Claim C10 (confirmed).  `readLogFile` returns `null` whenever
the successfully read and decoded content trims to the empty string,
even though the file exists and its size on disk is non-zero. -/
theorem claim_C10_whitespace_null (android : Bool) (env : ReadEnv) (filename : String)
    (sz : Nat) (c : String)
    (hval : validLogFilename filename = true) (hex : env.fileExists = true)
    (hst : env.statSize = some sz) (hsz : sz ≠ 0)
    (hc : readRawContent android env = some c) (htrim : strTrim c = "") :
    (readLogFileModel android env filename).1 = none := by
  obtain ⟨ex, st, u8, fb⟩ := env
  replace hex : ex = true := hex
  replace hst : st = some sz := hst
  subst hex hst
  unfold readLogFileModel readContentResult
  rw [if_neg (by simpa using hval), if_neg (by simp)]
  dsimp only
  rw [if_neg (by omega), hc]
  dsimp only
  rw [if_pos htrim]

/-- Witness for C10: a one-space file of size 1 reads back as `null`. -/
theorem claim_C10_whitespace_null_witness :
    (readLogFileModel false ⟨true, some 1, some " ", none⟩ "session_2024-03-14.txt").1 =
      none :=
  claim_C10_whitespace_null false ⟨true, some 1, some " ", none⟩ "session_2024-03-14.txt"
    1 " " (by rfl) (by rfl) (by rfl) (by omega) (by rfl) (by rfl)


/-- Claim C8 counterexample.  On a name that fails the
`session_*.txt` pattern and names no existing file, `deleteLogFile`
returns `false` (rejecting the name without any unlink), where the
claim as stated promises `true` for any non-existing file. -/
theorem claim_C8_counterexample :
    (deleteLogFileModel none false false "other.txt").result = false ∧
    (deleteLogFileModel none false false "other.txt").unlinkCalled = false ∧
    validLogFilename "other.txt" = false := by
  refine ⟨by rfl, by rfl, by rfl⟩

/-- Claim C8 (corrected).  `deleteLogFile` returns `false` without
unlinking when the name is invalid or resolves to the active file;
on a valid, non-active name it returns `true` when the file does not
exist (idempotent no-op) and otherwise removes the file, returning
`true` on success and `false` on failure. -/
theorem claim_C8_delete_contract_amended (active : Option String)
    (fileExists unlinkFails : Bool) (filename : String) :
    ((deleteLogFileModel active fileExists unlinkFails filename).result = true ↔
      validLogFilename filename = true ∧ ¬ active = some filename ∧
        (fileExists = false ∨ unlinkFails = false)) ∧
    ((deleteLogFileModel active fileExists unlinkFails filename).fileRemoved = true ↔
      validLogFilename filename = true ∧ ¬ active = some filename ∧
        fileExists = true ∧ unlinkFails = false) ∧
    ((deleteLogFileModel active fileExists unlinkFails filename).unlinkCalled = true ↔
      validLogFilename filename = true ∧ ¬ active = some filename) := by
  unfold deleteLogFileModel
  by_cases hval : validLogFilename filename
  · rw [if_neg (by simpa using hval)]
    by_cases hact : active = some filename
    · rw [if_pos hact]
      simp [hval, hact]
    · rw [if_neg hact]
      cases fileExists
      · simp [hval, hact]
      · cases unlinkFails <;> simp [hval, hact]
  · rw [if_pos (by simpa using hval)]
    simp [hval]

/-- Witness for the amended C8: deleting a valid, non-active,
non-existing name reports success without removing anything. -/
theorem claim_C8_delete_contract_amended_witness :
    ((deleteLogFileModel none false false "session_2024-03-10.txt").result = true ↔
      validLogFilename "session_2024-03-10.txt" = true ∧
        ¬ (none : Option String) = some "session_2024-03-10.txt" ∧
        (false = false ∨ false = false)) :=
  (claim_C8_delete_contract_amended none false false "session_2024-03-10.txt").1

/-- Claim C9 (confirmed).  `cleanupCurrentSession` deletes the
active log file iff it exists with size exactly 0; in every case
(empty file, non-empty file, missing file) it clears
`currentSessionLogPath` and `isSessionInitialized`, leaves
`logDirectoryPath` unchanged, and a non-empty active file is not
deleted. -/
theorem claim_C9_cleanup_session (st : SessionState) (activeSize : Option Nat)
    (name : String) (dir : String)
    (hactive : st.currentSessionLogPath = some name)
    (hdir : st.logDirectoryPath = some dir)
    (hvalid : validLogFilename name = true) :
    ((cleanupCurrentSessionModel st activeSize).2 = true ↔ activeSize = some 0) ∧
    (cleanupCurrentSessionModel st activeSize).1.currentSessionLogPath = none ∧
    (cleanupCurrentSessionModel st activeSize).1.isSessionInitialized = false ∧
    (cleanupCurrentSessionModel st activeSize).1.logDirectoryPath = st.logDirectoryPath ∧
    (∀ n, activeSize = some n → n ≠ 0 →
      (cleanupCurrentSessionModel st activeSize).2 = false) := by
  obtain ⟨path, init, dirF⟩ := st
  replace hactive : path = some name := hactive
  replace hdir : dirF = some dir := hdir
  subst hactive hdir
  unfold cleanupCurrentSessionModel
  dsimp only
  rcases activeSize with _ | sz
  · simp
  · rcases Nat.eq_zero_or_pos sz with rfl | hsz
    · simp [hvalid]
    · dsimp only
      rw [if_neg (by omega)]
      simp only [Bool.false_eq_true, false_iff, Option.some.injEq, true_and, and_true]
      exact ⟨by omega, fun n _ _ => trivial⟩

/-- Witness for C9: an empty (size-0) active file is deleted and the
session state is cleared. -/
theorem claim_C9_cleanup_session_witness :
    ((cleanupCurrentSessionModel
        ⟨some "session_2024-03-14.txt", true, some "/logs"⟩ (some 0)).2 = true ↔
      (some 0 : Option Nat) = some 0) :=
  (claim_C9_cleanup_session ⟨some "session_2024-03-14.txt", true, some "/logs"⟩ (some 0)
    "session_2024-03-14.txt" "/logs" rfl rfl (by rfl)).1


theorem shouldFilter_iff (filters : List String) (parts : List LogArg) :
    shouldFilter filters parts = true ↔
      ∃ p ∈ parts, ∃ s, p = LogArg.str s ∧
        ∃ f ∈ filters, strContainsSub (strToLower s) (strToLower f) = true := by
  unfold shouldFilter
  rw [List.any_eq_true]
  constructor
  · rintro ⟨p, hp, hpred⟩
    cases p with
    | other => simp at hpred
    | str s =>
      simp only at hpred
      rw [List.any_eq_true] at hpred
      obtain ⟨f', hf', hc⟩ := hpred
      rw [List.mem_map] at hf'
      obtain ⟨f, hf, rfl⟩ := hf'
      exact ⟨LogArg.str s, hp, s, rfl, f, hf, hc⟩
  · rintro ⟨p, hp, s, rfl, f, hf, hc⟩
    refine ⟨LogArg.str s, hp, ?_⟩
    simp only
    rw [List.any_eq_true]
    exact ⟨strToLower f, List.mem_map_of_mem strToLower hf, hc⟩

/-- Claim C6 counterexample.  `log()` with no arguments and filter
list `["empty"]` is suppressed entirely (the injected placeholder
`'[Empty log call]'` matches the filter), yet no filter matches any
string-typed argument of the call — there are none — so the claimed
"suppressed iff some filter matches some string-typed argument"
equivalence is false as stated. -/
theorem claim_C6_counterexample : ¬ filterClaimStated := by
  intro h
  have h1 := (h ["empty"] []).1.mp (by rfl)
  obtain ⟨a, ha, _⟩ := h1
  exact absurd ha (List.not_mem_nil a)

/-- Claim C6 (corrected).  A `log` call is suppressed entirely —
no console output and no file append — iff some filter substring
matches, case-insensitively, some string-typed *message* argument of
the call, where the level argument is excluded from matching and a
call with no message arguments carries the placeholder
`'[Empty log call]'`; a non-suppressed call produces exactly one
console output and one file-append attempt. -/
theorem claim_C6_filter_suppression_amended (filters : List String) (args : List LogArg) :
    (logModel filters args = [] ↔
      ∃ p ∈ withPlaceholder (levelAndParts args).2, ∃ s, p = LogArg.str s ∧
        ∃ f ∈ filters, strContainsSub (strToLower s) (strToLower f) = true) ∧
    (¬ logModel filters args = [] →
      logModel filters args =
        [LogEffect.consoleOut (levelAndParts args).1,
         LogEffect.fileAppend (levelAndParts args).1]) := by
  unfold logModel
  by_cases hf : shouldFilter filters (withPlaceholder (levelAndParts args).2)
  · rw [if_pos hf]
    exact ⟨iff_of_true rfl ((shouldFilter_iff filters _).mp hf), fun h => absurd rfl h⟩
  · rw [if_neg hf]
    refine ⟨iff_of_false (by simp) ?_, fun _ => rfl⟩
    intro hex
    exact hf ((shouldFilter_iff filters _).mpr hex)

/-- Witness for the amended C6: `log('[Auth] login')` under filter
`["[Network]"]` produces exactly one console output and one
file-append attempt. -/
theorem claim_C6_filter_suppression_amended_witness :
    logModel ["[Network]"] [LogArg.str "[Auth] login"] =
      [LogEffect.consoleOut (levelAndParts [LogArg.str "[Auth] login"]).1,
       LogEffect.fileAppend (levelAndParts [LogArg.str "[Auth] login"]).1] :=
  (claim_C6_filter_suppression_amended ["[Network]"] [LogArg.str "[Auth] login"]).2
    (by decide)


/-- Claim C1 counterexample.  The exported `writeToFile` has no write
queue: with two concurrently issued appends there is a valid
event-loop schedule under which the lines land out of submission
order, and another under which two appends are in flight at once — so
the claim as stated (serialized, in-order appends for every schedule,
any `N ≤ 50`) is false. -/
theorem claim_C1_counterexample :
    ¬ fmSerializedClaim ∧
    runFM (initWState 2) [0, 1, 0, 1] =
      some ⟨[[WStep.appendEnd 0, WStep.statCheck], [WStep.appendEnd 1, WStep.statCheck]], []⟩ ∧
    inFlight ⟨[[WStep.appendEnd 0, WStep.statCheck],
               [WStep.appendEnd 1, WStep.statCheck]], []⟩ = 2 := by
  refine ⟨?_, by rfl, by rfl⟩
  intro h
  have h2 := (h 2 (by omega)).1 [0, 1, 1, 1, 0, 0, 0, 1] ⟨[[], []], [1, 0]⟩
    (by rfl) (by decide)
  exact absurd h2 (by decide)

theorem map_range_set {α : Type} (n k : Nat) (hk : k < n) (f : Nat → α) (v : α) :
    (List.map f (List.range n)).set k v =
      List.map (fun j => if j = k then v else f j) (List.range n) := by
  apply List.ext_get?
  intro i
  rw [List.get?_set]
  by_cases hik : k = i
  · subst hik
    rw [if_pos rfl, List.get?_map, List.get?_map, List.get?_range hk]
    simp
  · rw [if_neg hik, List.get?_map, List.get?_map]
    by_cases hin : i < n
    · rw [List.get?_range hin]
      simp only [Option.map_some']
      rw [if_neg (fun h => hik h.symm)]
    · rw [List.get?_eq_none.mpr (by simp; omega)]
      simp

theorem qState_get? (n k p t : Nat) :
    (qState n k p).threads.get? t =
      if h : t < n then
        some (if t < k then [] else if t = k then (writeThread t).drop p else writeThread t)
      else none := by
  unfold qState
  dsimp only
  rw [List.get?_map]
  by_cases ht : t < n
  · rw [List.get?_range ht, dif_pos ht]
    rfl
  · rw [List.get?_eq_none.mpr (by simp; omega), dif_neg ht]
    rfl

theorem qState_take_all_empty (n k p : Nat) (hk : k ≤ n) :
    ((qState n k p).threads.take k).all (fun th => th.isEmpty) = true := by
  unfold qState
  dsimp only
  rw [← List.map_take, List.take_range, Nat.min_eq_left hk]
  rw [List.all_eq_true]
  intro th hth
  rw [List.mem_map] at hth
  obtain ⟨j, hj, rfl⟩ := hth
  rw [List.mem_range] at hj
  rw [if_pos hj]
  rfl

theorem writeThread_drop_ne_nil (j p : Nat) (hp : p < 4) :
    (writeThread j).drop p ≠ [] := by
  match p, hp with
  | 0, _ => simp [writeThread]
  | 1, _ => simp [writeThread]
  | 2, _ => simp [writeThread]
  | 3, _ => simp [writeThread]

theorem stepQ_qState (n k p t : Nat) (hk : k ≤ n) (hp : p < 4) (st' : WState)
    (hstep : stepQ (qState n k p) t = some st') :
    k < n ∧ t = k ∧
      st' = (if p = 3 then qState n (k + 1) 0 else qState n k (p + 1)) := by
  unfold stepQ at hstep
  rw [qState_get?] at hstep
  by_cases ht : t < n
  · rw [dif_pos ht] at hstep
    by_cases htk : t < k
    · rw [if_pos htk] at hstep
      exact absurd hstep (by simp)
    · rw [if_neg htk] at hstep
      by_cases hteq : t = k
      · subst hteq
        have hkn : t < n := ht
        rw [if_pos rfl] at hstep
        refine ⟨hkn, rfl, ?_⟩
        match p, hp with
        | 0, _ =>
          simp only [writeThread, List.drop_zero] at hstep
          rw [if_pos (qState_take_all_empty n t 0 hk)] at hstep
          injection hstep with hstep
          subst hstep
          rw [if_neg (by omega)]
          unfold qState applyWStep
          dsimp only
          rw [map_range_set n t hkn]
          refine congrArg₂ WState.mk (List.map_congr_left ?_) ?_
          · intro j hj
            rw [List.mem_range] at hj
            by_cases hjt : j = t
            · subst hjt
              rw [if_pos rfl, if_neg (by omega), if_pos rfl]
              rfl
            · rw [if_neg hjt]
              by_cases hjlt : j < t
              · rw [if_pos hjlt, if_pos hjlt]
              · rw [if_neg hjlt, if_neg hjlt, if_neg hjt, if_neg hjt]
          · rw [if_neg (fun h => by omega : ¬ (t < n ∧ 3 ≤ 0)),
              if_neg (fun h => by omega : ¬ (t < n ∧ 3 ≤ 0 + 1))]
        | 1, _ =>
          simp only [writeThread, List.drop_succ_cons, List.drop_zero] at hstep
          rw [if_pos (qState_take_all_empty n t 1 hk)] at hstep
          injection hstep with hstep
          subst hstep
          rw [if_neg (by omega)]
          unfold qState applyWStep
          dsimp only
          rw [map_range_set n t hkn]
          refine congrArg₂ WState.mk (List.map_congr_left ?_) ?_
          · intro j hj
            rw [List.mem_range] at hj
            by_cases hjt : j = t
            · subst hjt
              rw [if_pos rfl, if_neg (by omega), if_pos rfl]
              rfl
            · rw [if_neg hjt]
              by_cases hjlt : j < t
              · rw [if_pos hjlt, if_pos hjlt]
              · rw [if_neg hjlt, if_neg hjlt, if_neg hjt, if_neg hjt]
          · rw [if_neg (fun h => by omega : ¬ (t < n ∧ 3 ≤ 1)),
              if_neg (fun h => by omega : ¬ (t < n ∧ 3 ≤ 1 + 1))]
        | 2, _ =>
          simp only [writeThread, List.drop_succ_cons, List.drop_zero] at hstep
          rw [if_pos (qState_take_all_empty n t 2 hk)] at hstep
          injection hstep with hstep
          subst hstep
          rw [if_neg (by omega)]
          unfold qState applyWStep
          dsimp only
          rw [map_range_set n t hkn]
          refine congrArg₂ WState.mk (List.map_congr_left ?_) ?_
          · intro j hj
            rw [List.mem_range] at hj
            by_cases hjt : j = t
            · subst hjt
              rw [if_pos rfl, if_neg (by omega), if_pos rfl]
              rfl
            · rw [if_neg hjt]
              by_cases hjlt : j < t
              · rw [if_pos hjlt, if_pos hjlt]
              · rw [if_neg hjlt, if_neg hjlt, if_neg hjt, if_neg hjt]
          · rw [if_neg (fun h => by omega : ¬ (t < n ∧ 3 ≤ 2)),
              if_pos (⟨hkn, by omega⟩ : t < n ∧ 3 ≤ 2 + 1)]
            exact (List.range_succ t).symm
        | 3, _ =>
          simp only [writeThread, List.drop_succ_cons, List.drop_zero] at hstep
          rw [if_pos (qState_take_all_empty n t 3 hk)] at hstep
          injection hstep with hstep
          subst hstep
          rw [if_pos rfl]
          unfold qState applyWStep
          dsimp only
          rw [map_range_set n t hkn]
          refine congrArg₂ WState.mk (List.map_congr_left ?_) ?_
          · intro j hj
            rw [List.mem_range] at hj
            by_cases hjt : j = t
            · subst hjt
              rw [if_pos rfl, if_pos (by omega)]
            · rw [if_neg hjt]
              by_cases hjlt : j < t
              · rw [if_pos hjlt, if_pos (by omega)]
              · rw [if_neg hjlt, if_neg (by omega)]
                by_cases hjt1 : j = t + 1
                · subst hjt1
                  rw [if_pos rfl, if_neg (by omega)]
                  rw [List.drop_zero]
                · rw [if_neg hjt1, if_neg (by omega)]
          · rw [if_pos (⟨hkn, by omega⟩ : t < n ∧ 3 ≤ 3),
              if_neg (fun h => by omega : ¬ (t + 1 < n ∧ 3 ≤ 0))]
      · -- t > k: the queue guard fails, no step is possible
        rw [if_neg hteq] at hstep
        have hkt : k < t := by omega
        have hguard : ((qState n k p).threads.take t).all (fun th => th.isEmpty) = false := by
          rw [List.all_eq_false]
          refine ⟨(writeThread k).drop p, ?_, ?_⟩
          · unfold qState
            dsimp only
            rw [← List.map_take, List.take_range, Nat.min_eq_left (by omega)]
            rw [List.mem_map]
            refine ⟨k, by rw [List.mem_range]; omega, ?_⟩
            rw [if_neg (by omega), if_pos rfl]
          · intro hemp
            exact writeThread_drop_ne_nil k p hp (List.isEmpty_iff.mp hemp)
        rw [hguard] at hstep
        simp [writeThread] at hstep
  · rw [dif_neg ht] at hstep
    exact absurd hstep (by simp)

theorem runQ_reach (n : Nat) :
    ∀ (sched : List Nat) (k p : Nat), k ≤ n → p < 4 →
      ∀ st', runQ (qState n k p) sched = some st' →
        ∃ k' p', k' ≤ n ∧ p' < 4 ∧ st' = qState n k' p' := by
  intro sched
  induction sched with
  | nil =>
    intro k p hk hp st' hrun
    injection hrun with hrun
    exact ⟨k, p, hk, hp, hrun.symm⟩
  | cons t sched ih =>
    intro k p hk hp st' hrun
    unfold runQ at hrun
    rcases hstep : stepQ (qState n k p) t with _ | st₁
    · rw [hstep] at hrun
      exact absurd hrun (by simp)
    · rw [hstep] at hrun
      rw [Option.some_bind] at hrun
      obtain ⟨hkn, rfl, hst₁⟩ := stepQ_qState n k p t hk hp st₁ hstep
      by_cases hp3 : p = 3
      · subst hp3
        rw [if_pos rfl] at hst₁
        subst hst₁
        exact ih (t + 1) 0 (by omega) (by omega) st' hrun
      · rw [if_neg hp3] at hst₁
        subst hst₁
        exact ih t (p + 1) hk (by omega) st' hrun

theorem inFlight_qState (n k p : Nat) : inFlight (qState n k p) ≤ 1 := by
  unfold inFlight qState
  dsimp only
  rw [List.countP_map]
  have hmono : List.countP
      ((fun th => match th with
        | WStep.appendEnd _ :: _ => true
        | _ => false) ∘ (fun j =>
          if j < k then [] else if j = k then (writeThread j).drop p else writeThread j))
      (List.range n) ≤ List.countP (fun j => j == k) (List.range n) := by
    apply List.countP_mono_left
    intro j hj hpred
    simp only [Function.comp] at hpred
    by_cases hjk : j = k
    · simp [hjk]
    · exfalso
      rw [if_neg hjk] at hpred
      by_cases hjlt : j < k
      · rw [if_pos hjlt] at hpred
        simp at hpred
      · rw [if_neg hjlt] at hpred
        simp [writeThread] at hpred
  refine le_trans hmono ?_
  have : List.countP (fun j => j == k) (List.range n) = (List.range n).count k := rfl
  rw [this]
  exact List.nodup_iff_count_le_one.mp (List.nodup_range n) k

theorem initWState_eq_qState (n : Nat) : initWState n = qState n 0 0 := by
  unfold initWState qState
  refine congrArg₂ WState.mk (List.map_congr_left ?_) ?_
  · intro j hj
    by_cases hj0 : j = 0
    · subst hj0
      rw [if_neg (by omega), if_pos rfl]
      rfl
    · rw [if_neg (by omega), if_neg hj0]
  · rw [if_neg (fun h => by omega : ¬ (0 < n ∧ 3 ≤ 0))]
    rfl

theorem qState_allDone (n k p : Nat) (hk : k ≤ n) (hp : p < 4)
    (hdone : allDone (qState n k p)) : (qState n k p).file = List.range n := by
  have hkn : k = n := by
    by_contra hne
    have hklt : k < n := by omega
    apply writeThread_drop_ne_nil k p hp
    apply hdone
    unfold qState
    dsimp only
    rw [List.mem_map]
    refine ⟨k, by rw [List.mem_range]; omega, ?_⟩
    rw [if_neg (by omega), if_pos rfl]
  subst hkn
  unfold qState
  dsimp only
  rw [if_neg (by omega)]

/-- Claim C1 (corrected, amended part).  Under the promise-chained
`writeQueue` discipline of the `Logger` class, for every number `n` of
concurrently issued append calls and every schedule: a completed run
leaves exactly the `n` lines in the file, once each, in submission
order, and every reachable state has at most one append in flight. -/
theorem claim_C1_queue_serialized_amended (n : Nat) (sched : List Nat) (st' : WState)
    (hrun : runQ (initWState n) sched = some st') :
    (allDone st' → st'.file = List.range n) ∧ inFlight st' ≤ 1 := by
  rw [initWState_eq_qState] at hrun
  obtain ⟨k, p, hk, hp, rfl⟩ := runQ_reach n sched 0 0 (by omega) (by omega) st' hrun
  exact ⟨qState_allDone n k p hk hp, inFlight_qState n k p⟩

/-- Witness for the amended C1: a complete sequential run of two
queued appends yields the two lines in submission order and never has
two appends in flight. -/
theorem claim_C1_queue_serialized_amended_witness :
    allDone (⟨[[], []], [0, 1]⟩ : WState) ∧
    ((⟨[[], []], [0, 1]⟩ : WState).file = List.range 2 ∧
      inFlight (⟨[[], []], [0, 1]⟩ : WState) ≤ 1) := by
  have h := claim_C1_queue_serialized_amended 2 [0, 0, 0, 0, 1, 1, 1, 1]
    ⟨[[], []], [0, 1]⟩ (by rfl)
  exact ⟨by decide, h.1 (by decide), h.2⟩


end RNLogs
